import Mathlib

set_option linter.unusedVariables false

/-
Verification of the mustache-style tokenizer in src/token.rs.

The character source (a Rust `Iterator<Item = char>`) is modelled as a
`List Char`; the pushback queue (a `LinkedList<char>` used only through
`push_front` / `pop_front`) is likewise a `List Char`.  Strings are lists of
characters.  Every operation returns its result together with the updated
tokenizer, mirroring the `&mut self` methods of the source.
-/

namespace Mrush

/-- Tokens of the lexer (enum `Token` in src/token.rs). -/
inductive Token where
  | Text (content : List Char)
  | LMustache
  | RMustache
  | UnescapeTag
  | Pound
  | Slash
  | Hat
  | Id (name : List Char)
deriving DecidableEq

/-- Lexer state (enum `State` in src/token.rs): `Normal` outside tags,
`SyntaxToken` between the open and close delimiters. -/
inductive State where
  | Normal
  | SyntaxToken
deriving DecidableEq

/-- The tokenizer (struct `Tokenlizer` in src/token.rs): the underlying
character source `reader`, the pushback buffer `buf` (front = next to read),
the current state, and the two delimiter strings `lm` and `rm`. -/
structure Tokenlizer where
  reader : List Char
  buf : List Char
  state : State
  lm : List Char
  rm : List Char
deriving DecidableEq

/-- fn `is_id`: Rust `ch.is_digit(36) || ch == '_'`.  `is_digit(36)` accepts
the ASCII digits together with the ASCII letters of either case. -/
def is_id (ch : Char) : Bool :=
  (ch.isDigit || ch.isAlpha) || ch == '_'

/-- Rust `str::len`: the UTF-8 byte length of a string (each character
contributes `Char.utf8Size` bytes), as opposed to the character count
`List.length`.  The two agree exactly when every character is ASCII. -/
def strLen : List Char → Nat
  | [] => 0
  | c :: t => c.utf8Size + strLen t

namespace Tokenlizer

/-- fn `new`: fresh tokenizer with empty pushback buffer in state `Normal`. -/
def new (lm rm : List Char) (reader : List Char) : Tokenlizer :=
  { reader := reader, buf := [], state := State.Normal, lm := lm, rm := rm }

/-- The observable character stream: pushback buffer followed by the
remaining underlying source. -/
def pending (σ : Tokenlizer) : List Char :=
  σ.buf ++ σ.reader

/-- The configuration fields (state and delimiters) of two tokenizers agree;
used to record that the character-stream operations never touch them. -/
def sameCfg (σ σ' : Tokenlizer) : Prop :=
  σ'.state = σ.state ∧ σ'.lm = σ.lm ∧ σ'.rm = σ.rm

/-- fn `read`: pop the front of the pushback buffer, else pull from the
underlying source. -/
def read (σ : Tokenlizer) : Option Char × Tokenlizer :=
  match σ.buf with
  | c :: rest => (some c, { σ with buf := rest })
  | [] =>
    match σ.reader with
    | c :: rest => (some c, { σ with reader := rest })
    | [] => (none, σ)

/-- fn `push_back_char`: prepend one character to the pushback buffer. -/
def push_back_char (σ : Tokenlizer) (ch : Char) : Tokenlizer :=
  { σ with buf := ch :: σ.buf }

/-- fn `push_back_str`: reverse the string and push its characters one at a
time, so that they replay front-to-back. -/
def push_back_str (σ : Tokenlizer) (st : List Char) : Tokenlizer :=
  st.reverse.foldl (fun acc ch => acc.push_back_char ch) σ

/-- The loop of fn `read_str`: read characters one by one, accumulating them
in `buf`; if the source runs out everything read so far is pushed back. -/
def read_str_go (σ : Tokenlizer) (buf : List Char) : Nat → Option (List Char) × Tokenlizer
  | 0 => (some buf, σ)
  | n + 1 =>
    match σ.read with
    | (some c, σ') => read_str_go σ' (buf ++ [c]) n
    | (none, σ') => (none, σ'.push_back_str buf)

/-- fn `read_str`: read exactly `size` characters, all or nothing. -/
def read_str (σ : Tokenlizer) (size : Nat) : Option (List Char) × Tokenlizer :=
  read_str_go σ [] size

/-- The loop of fn `read_until`: accumulate characters until the accumulated
buffer ends with `u`; then push `u` back and cut it off the buffer. -/
def read_until_go (u : List Char) (σ : Tokenlizer) (buf : List Char) : List Char × Tokenlizer :=
  match h : σ.read with
  | (some c, σ') =>
    let buf' := buf ++ [c]
    if u.isSuffixOf buf' then
      (buf'.take (buf'.length - u.length), σ'.push_back_str u)
    else
      read_until_go u σ' buf'
  | (none, σ') => (buf, σ')
termination_by σ.buf.length + σ.reader.length
decreasing_by
  rcases σ with ⟨r, b, s, l, m⟩
  rcases b with _ | ⟨c1, t⟩
  · rcases r with _ | ⟨c1, t⟩
    · simp [read] at h
    · simp [read] at h
      obtain ⟨h1, h2⟩ := h
      subst h2
      simp only [List.length_cons, List.length_nil]
      omega
  · simp [read] at h
    obtain ⟨h1, h2⟩ := h
    subst h2
    simp only [List.length_cons]
    omega

/-- fn `read_until`: the final emptiness check of the accumulated buffer. -/
def read_until (σ : Tokenlizer) (u : List Char) : Option (List Char) × Tokenlizer :=
  let r := read_until_go u σ []
  (if r.1.length > 0 then some r.1 else none, r.2)

/-- The loop of fn `read_while`: accumulate characters satisfying `pred`;
the first failing character is pushed back. -/
def read_while_go (pred : Char → Bool) (σ : Tokenlizer) (buf : List Char) :
    List Char × Tokenlizer :=
  match h : σ.read with
  | (some c, σ') =>
    if pred c then read_while_go pred σ' (buf ++ [c])
    else (buf, σ'.push_back_char c)
  | (none, σ') => (buf, σ')
termination_by σ.buf.length + σ.reader.length
decreasing_by
  rcases σ with ⟨r, b, s, l, m⟩
  rcases b with _ | ⟨c1, t⟩
  · rcases r with _ | ⟨c1, t⟩
    · simp [read] at h
    · simp [read] at h
      obtain ⟨h1, h2⟩ := h
      subst h2
      simp only [List.length_cons, List.length_nil]
      omega
  · simp [read] at h
    obtain ⟨h1, h2⟩ := h
    subst h2
    simp only [List.length_cons]
    omega

/-- fn `read_while`: the final emptiness check of the accumulated buffer. -/
def read_while (σ : Tokenlizer) (pred : Char → Bool) : Option (List Char) × Tokenlizer :=
  let r := read_while_go pred σ []
  (if r.1.length > 0 then some r.1 else none, r.2)

/-- fn `starts_with`: the source calls `read_str(st.len())`, and Rust's
`str::len` is the UTF-8 byte length of `st` (not its character count), so
`strLen st` characters are read; on an exact match they stay consumed,
otherwise the attempt is pushed back.  For non-ASCII `st` the read is longer
than `st` and the comparison always fails. -/
def starts_with (σ : Tokenlizer) (st : List Char) : Bool × Tokenlizer :=
  match σ.read_str (strLen st) with
  | (some temp, σ') =>
    if temp = st then (true, σ') else (false, σ'.push_back_str temp)
  | (none, σ') => (false, σ')

/-- fn `skip_ws`: consume literal spaces; the first non-space character is
pushed back. -/
def skip_ws (σ : Tokenlizer) : Tokenlizer :=
  match h : σ.read with
  | (some c, σ') => if c == ' ' then skip_ws σ' else σ'.push_back_char c
  | (none, σ') => σ'
termination_by σ.buf.length + σ.reader.length
decreasing_by
  rcases σ with ⟨r, b, s, l, m⟩
  rcases b with _ | ⟨c1, t⟩
  · rcases r with _ | ⟨c1, t⟩
    · simp [read] at h
    · simp [read] at h
      obtain ⟨h1, h2⟩ := h
      subst h2
      simp only [List.length_cons, List.length_nil]
      omega
  · simp [read] at h
    obtain ⟨h1, h2⟩ := h
    subst h2
    simp only [List.length_cons]
    omega

/-- fn `read_token`: the two-state lexer.  In `Normal`, an open delimiter
becomes `LMustache` (moving to `SyntaxToken`), otherwise everything up to
the next open delimiter becomes `Text`.  In `SyntaxToken`, after skipping
spaces the markers `#`, `&`, `/`, `^`, the close delimiter, and identifier
runs are tried in this order. -/
def read_token (σ : Tokenlizer) : Option Token × Tokenlizer :=
  let lm := σ.lm
  let rm := σ.rm
  match σ.state with
  | State.Normal =>
    match σ.starts_with lm with
    | (true, σ') => (some Token.LMustache, { σ' with state := State.SyntaxToken })
    | (false, σ') =>
      let r := σ'.read_until lm
      (r.1.map Token.Text, r.2)
  | State.SyntaxToken =>
    let σ0 := σ.skip_ws
    match σ0.starts_with ['#'] with
    | (true, σ1) => (some Token.Pound, σ1)
    | (false, σ1) =>
      match σ1.starts_with ['&'] with
      | (true, σ2) => (some Token.UnescapeTag, σ2)
      | (false, σ2) =>
        match σ2.starts_with ['/'] with
        | (true, σ3) => (some Token.Slash, σ3)
        | (false, σ3) =>
          match σ3.starts_with ['^'] with
          | (true, σ4) => (some Token.Hat, σ4)
          | (false, σ4) =>
            match σ4.starts_with rm with
            | (true, σ5) => (some Token.RMustache, { σ5 with state := State.Normal })
            | (false, σ5) =>
              let r := σ5.read_while is_id
              (r.1.map Token.Id, r.2)

/-- `Iterator::next` for the tokenizer simply delegates to `read_token`. -/
def next (σ : Tokenlizer) : Option Token × Tokenlizer :=
  σ.read_token

/-- Iterate `read_token` `k` times, keeping only the tokenizer. -/
def nextN (σ : Tokenlizer) : Nat → Tokenlizer
  | 0 => σ
  | k + 1 => ((σ.nextN k).read_token).2

end Tokenlizer

/-- Specification-side function: the text of `l` strictly before the first
occurrence of `u` as a contiguous substring (all of `l` when `u` does not
occur in `l`). -/
def textBefore (u : List Char) : List Char → List Char
  | [] => []
  | c :: rest => if u.isPrefixOf (c :: rest) then [] else c :: textBefore u rest

/-- Specification-side predicate: `u` occurs in `l` starting at index `i`. -/
def occursAt (u l : List Char) (i : Nat) : Prop :=
  u.isPrefixOf (l.drop i) = true

/-- Specification-side description of one `nextToken` request in the `InTag`
state, written from the spec: skip plain spaces, then try, in this fixed
priority order, the markers `#`, `&`, `/`, `^`, the close delimiter (moving
back to `Normal`), and finally a maximal non-empty identifier run; if none
match, give the none-signal. -/
def inTagStep (rm : List Char) (p : List Char) : Option Token × State × List Char :=
  let q := p.dropWhile (fun c => c == ' ')
  if (['#'] : List Char).isPrefixOf q then (some Token.Pound, State.SyntaxToken, q.drop 1)
  else if (['&'] : List Char).isPrefixOf q then (some Token.UnescapeTag, State.SyntaxToken, q.drop 1)
  else if (['/'] : List Char).isPrefixOf q then (some Token.Slash, State.SyntaxToken, q.drop 1)
  else if (['^'] : List Char).isPrefixOf q then (some Token.Hat, State.SyntaxToken, q.drop 1)
  else if rm.isPrefixOf q then (some Token.RMustache, State.Normal, q.drop rm.length)
  else if q.takeWhile is_id ≠ [] then
    (some (Token.Id (q.takeWhile is_id)), State.SyntaxToken, q.dropWhile is_id)
  else (none, State.SyntaxToken, q)

/-- Specification-side description of one `nextToken` request in the `Normal`
state: an open delimiter at the front becomes `LMustache` (moving to
`InTag`), otherwise the non-empty text before the next open delimiter
becomes `Text`, and the none-signal is given when nothing was read. -/
def normalStep (lm : List Char) (p : List Char) : Option Token × State × List Char :=
  if lm.isPrefixOf p then (some Token.LMustache, State.SyntaxToken, p.drop lm.length)
  else if textBefore lm p = [] then (none, State.Normal, p.drop (textBefore lm p).length)
  else (some (Token.Text (textBefore lm p)), State.Normal, p.drop (textBefore lm p).length)

/-- The observable behavior of one `nextToken` request in the `InTag` state
as the code actually computes it: like `inTagStep`, except that the close
delimiter matches only when its UTF-8 byte length equals its character
count (i.e. it is all-ASCII), because `starts_with` reads `strLen rm`
characters.  The single-character ASCII markers are unaffected. -/
def inTagStepB (rm : List Char) (p : List Char) : Option Token × State × List Char :=
  let q := p.dropWhile (fun c => c == ' ')
  if (['#'] : List Char).isPrefixOf q then (some Token.Pound, State.SyntaxToken, q.drop 1)
  else if (['&'] : List Char).isPrefixOf q then (some Token.UnescapeTag, State.SyntaxToken, q.drop 1)
  else if (['/'] : List Char).isPrefixOf q then (some Token.Slash, State.SyntaxToken, q.drop 1)
  else if (['^'] : List Char).isPrefixOf q then (some Token.Hat, State.SyntaxToken, q.drop 1)
  else if (rm.isPrefixOf q = true ∧ strLen rm = rm.length) then
    (some Token.RMustache, State.Normal, q.drop rm.length)
  else if q.takeWhile is_id ≠ [] then
    (some (Token.Id (q.takeWhile is_id)), State.SyntaxToken, q.dropWhile is_id)
  else (none, State.SyntaxToken, q)

/-- The observable behavior of one `nextToken` request in the `Normal` state
as the code actually computes it: like `normalStep`, except that the open
delimiter is recognized by `starts_with` only when it is all-ASCII
(`strLen lm = lm.length`); otherwise the request falls through to
`read_until`, which is character-faithful. -/
def normalStepB (lm : List Char) (p : List Char) : Option Token × State × List Char :=
  if (lm.isPrefixOf p = true ∧ strLen lm = lm.length) then
    (some Token.LMustache, State.SyntaxToken, p.drop lm.length)
  else if textBefore lm p = [] then (none, State.Normal, p.drop (textBefore lm p).length)
  else (some (Token.Text (textBefore lm p)), State.Normal, p.drop (textBefore lm p).length)

/-- The observable behavior of one `nextToken` request: dispatch on the
state. -/
def stepP (lm rm : List Char) : State → List Char → Option Token × State × List Char
  | State.Normal, p => normalStepB lm p
  | State.SyntaxToken, p => inTagStepB rm p

/-- The invariant of every emitted token (used for claim C10): tokens that
carry a string carry a non-empty one, `Text` contains no occurrence of the
open delimiter, and `Id` consists of identifier characters only. -/
def goodToken (lm : List Char) : Token → Prop
  | Token.Text s => s ≠ [] ∧ ∀ i, ¬ (lm.isPrefixOf (s.drop i) = true)
  | Token.Id s => s ≠ [] ∧ ∀ c ∈ s, is_id c = true
  | _ => True

end Mrush

namespace Mrush

open Tokenlizer

set_option linter.unusedVariables false

lemma sameCfg_rfl (σ : Tokenlizer) : sameCfg σ σ := ⟨rfl, rfl, rfl⟩

lemma sameCfg_trans {σ1 σ2 σ3 : Tokenlizer} (h1 : sameCfg σ1 σ2) (h2 : sameCfg σ2 σ3) :
    sameCfg σ1 σ3 :=
  ⟨h2.1.trans h1.1, h2.2.1.trans h1.2.1, h2.2.2.trans h1.2.2⟩

lemma read_of_nil {σ : Tokenlizer} (h : σ.pending = []) : σ.read = (none, σ) := by
  rcases σ with ⟨r, b, s, l, m⟩
  simp only [pending, List.append_eq_nil] at h
  obtain ⟨h1, h2⟩ := h
  subst h1; subst h2
  simp [Tokenlizer.read]

lemma read_of_cons {σ : Tokenlizer} {c : Char} {t : List Char} (h : σ.pending = c :: t) :
    (σ.read).1 = some c ∧ (σ.read).2.pending = t ∧ sameCfg σ (σ.read).2 := by
  rcases σ with ⟨r, b, s, l, m⟩
  rcases b with _ | ⟨c1, t1⟩
  · simp only [pending, List.nil_append] at h
    subst h
    simp [Tokenlizer.read, pending, sameCfg]
  · simp only [pending, List.cons_append, List.cons.injEq] at h
    obtain ⟨h1, h2⟩ := h
    subst h1
    simp [Tokenlizer.read, pending, sameCfg, h2]

lemma push_back_char_spec (σ : Tokenlizer) (c : Char) :
    (σ.push_back_char c).pending = c :: σ.pending ∧ sameCfg σ (σ.push_back_char c) := by
  simp [push_back_char, pending, sameCfg]

lemma push_back_str_step (σ : Tokenlizer) (c : Char) (t : List Char) :
    σ.push_back_str (c :: t) = (σ.push_back_str t).push_back_char c := by
  simp [push_back_str, List.reverse_cons, List.foldl_append]

lemma push_back_str_spec (σ : Tokenlizer) (s : List Char) :
    (σ.push_back_str s).pending = s ++ σ.pending ∧ sameCfg σ (σ.push_back_str s) := by
  induction s generalizing σ with
  | nil => simp [push_back_str, sameCfg]
  | cons c t ih =>
    rw [push_back_str_step]
    obtain ⟨ih1, ih2⟩ := ih σ
    obtain ⟨p1, p2⟩ := push_back_char_spec (σ.push_back_str t) c
    exact ⟨by rw [p1, ih1]; rfl, sameCfg_trans ih2 p2⟩

lemma read_str_go_le : ∀ (n : Nat) (σ : Tokenlizer) (buf : List Char),
    n ≤ σ.pending.length →
    (read_str_go σ buf n).1 = some (buf ++ σ.pending.take n)
    ∧ (read_str_go σ buf n).2.pending = σ.pending.drop n
    ∧ sameCfg σ (read_str_go σ buf n).2 := by
  intro n
  induction n with
  | zero => intro σ buf h; simp [read_str_go, sameCfg]
  | succ n ih =>
    intro σ buf h
    cases hp : σ.pending with
    | nil => rw [hp] at h; simp at h
    | cons c t =>
      obtain ⟨h1, h2, h3⟩ := read_of_cons hp
      have hread : σ.read = (some c, (σ.read).2) := by rw [← h1]
      rw [hp] at h
      simp only [List.length_cons, Nat.succ_le_succ_iff] at h
      have hlen : n ≤ (σ.read).2.pending.length := by rw [h2]; exact h
      obtain ⟨i1, i2, i3⟩ := ih (σ.read).2 (buf ++ [c]) hlen
      refine ⟨?_, ?_, ?_⟩
      · rw [read_str_go, hread, i1, h2]
        simp [hp]
      · rw [read_str_go, hread, i2, h2]
        simp [hp]
      · rw [read_str_go, hread]
        exact sameCfg_trans h3 i3

lemma read_str_go_gt : ∀ (n : Nat) (σ : Tokenlizer) (buf : List Char),
    σ.pending.length < n →
    (read_str_go σ buf n).1 = none
    ∧ (read_str_go σ buf n).2.pending = buf ++ σ.pending
    ∧ sameCfg σ (read_str_go σ buf n).2 := by
  intro n
  induction n with
  | zero => intro σ buf h; simp at h
  | succ n ih =>
    intro σ buf h
    cases hp : σ.pending with
    | nil =>
      have hread := read_of_nil hp
      obtain ⟨p1, p2⟩ := push_back_str_spec σ buf
      refine ⟨?_, ?_, ?_⟩
      · rw [read_str_go, hread]
      · rw [read_str_go, hread, p1, hp]
      · rw [read_str_go, hread]
        exact p2
    | cons c t =>
      obtain ⟨h1, h2, h3⟩ := read_of_cons hp
      have hread : σ.read = (some c, (σ.read).2) := by rw [← h1]
      rw [hp] at h
      simp only [List.length_cons, Nat.succ_lt_succ_iff] at h
      have hlen : (σ.read).2.pending.length < n := by rw [h2]; exact h
      obtain ⟨i1, i2, i3⟩ := ih (σ.read).2 (buf ++ [c]) hlen
      refine ⟨?_, ?_, ?_⟩
      · rw [read_str_go, hread, i1]
      · rw [read_str_go, hread, i2, h2]
        simp [hp]
      · rw [read_str_go, hread]
        exact sameCfg_trans h3 i3

lemma read_str_le {σ : Tokenlizer} {n : Nat} (h : n ≤ σ.pending.length) :
    (σ.read_str n).1 = some (σ.pending.take n)
    ∧ (σ.read_str n).2.pending = σ.pending.drop n
    ∧ sameCfg σ (σ.read_str n).2 := by
  have := read_str_go_le n σ [] h
  simpa [read_str] using this

lemma read_str_gt {σ : Tokenlizer} {n : Nat} (h : σ.pending.length < n) :
    (σ.read_str n).1 = none
    ∧ (σ.read_str n).2.pending = σ.pending
    ∧ sameCfg σ (σ.read_str n).2 := by
  have := read_str_go_gt n σ [] h
  simpa [read_str] using this

end Mrush

namespace Mrush

open Tokenlizer


lemma strLen_ge (s : List Char) : s.length ≤ strLen s := by
  induction s with
  | nil => simp [strLen]
  | cons c t ih =>
    have hc : 1 ≤ c.utf8Size := Char.utf8Size_pos c
    simp only [strLen, List.length_cons]
    omega

lemma starts_with_pos {σ : Tokenlizer} {s : List Char} (h : s.isPrefixOf σ.pending = true)
    (hb : strLen s = s.length) :
    (σ.starts_with s).1 = true
    ∧ (σ.starts_with s).2.pending = σ.pending.drop s.length
    ∧ sameCfg σ (σ.starts_with s).2 := by
  have hpre : s <+: σ.pending := by simpa using h
  have hlen : s.length ≤ σ.pending.length := hpre.length_le
  obtain ⟨r1, r2, r3⟩ := read_str_le (σ := σ) (n := s.length) hlen
  have htake : σ.pending.take s.length = s := ( List.prefix_iff_eq_take.mp hpre).symm
  rw [starts_with, hb]
  rcases hq : σ.read_str s.length with ⟨o, τ⟩
  rw [hq] at r1 r2 r3
  simp only at r1 r2
  rw [htake] at r1
  subst r1
  dsimp only
  rw [if_pos rfl]
  exact ⟨rfl, r2, r3⟩

lemma starts_with_neg {σ : Tokenlizer} {s : List Char} (h : s.isPrefixOf σ.pending = false) :
    (σ.starts_with s).1 = false
    ∧ (σ.starts_with s).2.pending = σ.pending
    ∧ sameCfg σ (σ.starts_with s).2 := by
  have hnpre : ¬ s <+: σ.pending := by
    intro hc
    rw [( List.isPrefixOf_iff_prefix).mpr hc] at h
    exact Bool.noConfusion h
  rw [starts_with]
  rcases le_or_lt (strLen s) σ.pending.length with hle | hlt
  · obtain ⟨r1, r2, r3⟩ := read_str_le (σ := σ) (n := strLen s) hle
    have hne : σ.pending.take (strLen s) ≠ s := by
      intro he
      apply hnpre
      rw [← he]
      exact List.take_prefix _ _
    rcases hq : σ.read_str (strLen s) with ⟨o, τ⟩
    rw [hq] at r1 r2 r3
    simp only at r1 r2
    subst r1
    dsimp only
    rw [if_neg hne]
    obtain ⟨p1, p2⟩ := push_back_str_spec τ (σ.pending.take (strLen s))
    refine ⟨rfl, ?_, sameCfg_trans r3 p2⟩
    rw [p1, r2, List.take_append_drop]
  · obtain ⟨r1, r2, r3⟩ := read_str_gt (σ := σ) (n := strLen s) hlt
    rcases hq : σ.read_str (strLen s) with ⟨o, τ⟩
    rw [hq] at r1 r2 r3
    simp only at r1 r2
    subst r1
    dsimp only
    exact ⟨rfl, r2, r3⟩

lemma starts_with_wide {σ : Tokenlizer} {s : List Char} (hb : strLen s ≠ s.length) :
    (σ.starts_with s).1 = false
    ∧ (σ.starts_with s).2.pending = σ.pending
    ∧ sameCfg σ (σ.starts_with s).2 := by
  rw [starts_with]
  rcases le_or_lt (strLen s) σ.pending.length with hle | hlt
  · obtain ⟨r1, r2, r3⟩ := read_str_le (σ := σ) (n := strLen s) hle
    have hne : σ.pending.take (strLen s) ≠ s := by
      intro he
      apply hb
      have hlen1 : (σ.pending.take (strLen s)).length = strLen s := by
        rw [List.length_take]
        exact Nat.min_eq_left hle
      rw [← hlen1, he]
    rcases hq : σ.read_str (strLen s) with ⟨o, τ⟩
    rw [hq] at r1 r2 r3
    simp only at r1 r2
    subst r1
    dsimp only
    rw [if_neg hne]
    obtain ⟨p1, p2⟩ := push_back_str_spec τ (σ.pending.take (strLen s))
    refine ⟨rfl, ?_, sameCfg_trans r3 p2⟩
    rw [p1, r2, List.take_append_drop]
  · obtain ⟨r1, r2, r3⟩ := read_str_gt (σ := σ) (n := strLen s) hlt
    rcases hq : σ.read_str (strLen s) with ⟨o, τ⟩
    rw [hq] at r1 r2 r3
    simp only at r1 r2
    subst r1
    dsimp only
    exact ⟨rfl, r2, r3⟩

lemma skip_ws_spec : ∀ (p : List Char) (σ : Tokenlizer), σ.pending = p →
    (σ.skip_ws).pending = p.dropWhile (fun c => c == ' ') ∧ sameCfg σ σ.skip_ws := by
  intro p
  induction p with
  | nil =>
    intro σ hp
    rw [skip_ws, read_of_nil hp]
    dsimp only
    exact ⟨by rw [hp]; rfl, sameCfg_rfl σ⟩
  | cons c t ih =>
    intro σ hp
    obtain ⟨h1, h2, h3⟩ := read_of_cons hp
    have hread : σ.read = (some c, (σ.read).2) := by rw [← h1]
    rw [skip_ws, hread]
    dsimp only
    by_cases hc : (c == ' ') = true
    · rw [if_pos hc]
      obtain ⟨i1, i2⟩ := ih (σ.read).2 h2
      refine ⟨?_, sameCfg_trans h3 i2⟩
      rw [i1, List.dropWhile_cons]
      simp [hc]
    · rw [if_neg hc]
      obtain ⟨p1, p2⟩ := push_back_char_spec (σ.read).2 c
      refine ⟨?_, sameCfg_trans h3 p2⟩
      rw [p1, h2, List.dropWhile_cons]
      simp [hc]

lemma read_while_go_spec (pred : Char → Bool) :
    ∀ (p : List Char) (σ : Tokenlizer) (buf : List Char), σ.pending = p →
    (read_while_go pred σ buf).1 = buf ++ p.takeWhile pred
    ∧ (read_while_go pred σ buf).2.pending = p.dropWhile pred
    ∧ sameCfg σ (read_while_go pred σ buf).2 := by
  intro p
  induction p with
  | nil =>
    intro σ buf hp
    rw [read_while_go, read_of_nil hp]
    dsimp only
    exact ⟨by simp, by rw [hp]; rfl, sameCfg_rfl σ⟩
  | cons c t ih =>
    intro σ buf hp
    obtain ⟨h1, h2, h3⟩ := read_of_cons hp
    have hread : σ.read = (some c, (σ.read).2) := by rw [← h1]
    rw [read_while_go, hread]
    dsimp only
    by_cases hc : pred c = true
    · rw [if_pos hc]
      obtain ⟨i1, i2, i3⟩ := ih (σ.read).2 (buf ++ [c]) h2
      refine ⟨?_, ?_, sameCfg_trans h3 i3⟩
      · rw [i1, List.takeWhile_cons_of_pos hc]
        simp
      · rw [i2, List.dropWhile_cons_of_pos hc]
    · rw [if_neg hc]
      obtain ⟨p1, p2⟩ := push_back_char_spec (σ.read).2 c
      refine ⟨?_, ?_, sameCfg_trans h3 p2⟩
      · rw [List.takeWhile_cons_of_neg hc]
        simp
      · rw [p1, h2, List.dropWhile_cons_of_neg hc]

lemma read_while_spec (σ : Tokenlizer) (pred : Char → Bool) :
    (σ.read_while pred).1
      = (if σ.pending.takeWhile pred = [] then none else some (σ.pending.takeWhile pred))
    ∧ (σ.read_while pred).2.pending = σ.pending.dropWhile pred
    ∧ sameCfg σ (σ.read_while pred).2 := by
  obtain ⟨g1, g2, g3⟩ := read_while_go_spec pred σ.pending σ [] rfl
  refine ⟨?_, by simpa [read_while] using g2, by simpa [read_while] using g3⟩
  by_cases he : σ.pending.takeWhile pred = []
  · simp [read_while, g1, he]
  · simp [read_while, g1, he, List.length_pos]

end Mrush

namespace Mrush

open Tokenlizer

lemma occursAt_take {u l : List Char} {i : Nat} (hu : u ≠ []) (h : occursAt u l i) :
    i + u.length ≤ l.length ∧ u <:+ l.take (i + u.length) := by
  have hp : u <+: l.drop i := by simpa [occursAt] using h
  obtain ⟨z, hz⟩ := hp
  have hlen : i + u.length ≤ l.length := by
    have hi : i ≤ l.length := by
      by_contra hgt
      push_neg at hgt
      rw [List.drop_eq_nil_of_le (le_of_lt hgt)] at hz
      exact hu (List.append_eq_nil.mp hz).1
    have := congrArg List.length hz
    simp only [List.length_append, List.length_drop] at this
    omega
  refine ⟨hlen, ?_⟩
  have htk : l.take (i + u.length) = l.take i ++ u := by
    rw [List.take_add]
    congr 1
    rw [← hz]
    exact List.take_left u z
  rw [htk]
  exact List.suffix_append (l.take i) u

lemma no_occur_of_check {u buf : List Char} (hu : u ≠ [])
    (H : ∀ k, 1 ≤ k → k ≤ buf.length → ¬ (u.isSuffixOf (buf.take k) = true)) :
    ∀ i, ¬ occursAt u buf i := by
  intro i hocc
  obtain ⟨hlen, hsuf⟩ := occursAt_take hu hocc
  have hpos : 0 < u.length := List.length_pos.mpr hu
  exact H (i + u.length) (by omega) hlen (by simpa using hsuf)

lemma textBefore_eq_self {u l : List Char} (h : ∀ i, ¬ occursAt u l i) :
    textBefore u l = l := by
  induction l with
  | nil => rfl
  | cons c t ih =>
    have h0 : ¬ (u.isPrefixOf (c :: t) = true) := by
      have := h 0
      simpa [occursAt] using this
    rw [textBefore, if_neg h0]
    congr 1
    apply ih
    intro i hi
    exact h (i + 1) (by simpa [occursAt] using hi)

lemma textBefore_eq_take {u l : List Char} {j : Nat} (hocc : occursAt u l j)
    (hmin : ∀ i, i < j → ¬ occursAt u l i) : textBefore u l = l.take j := by
  induction l generalizing j with
  | nil => simp [textBefore]
  | cons c t ih =>
    cases j with
    | zero =>
      have h0 : u.isPrefixOf (c :: t) = true := by simpa [occursAt] using hocc
      rw [textBefore, if_pos h0]
      rfl
    | succ j' =>
      have h0 : ¬ (u.isPrefixOf (c :: t) = true) := by
        have := hmin 0 (Nat.succ_pos j')
        simpa [occursAt] using this
      rw [textBefore, if_neg h0, List.take_succ_cons]
      congr 1
      apply ih
      · simpa [occursAt] using hocc
      · intro i hi
        have := hmin (i + 1) (by omega)
        simpa [occursAt] using this

lemma textBefore_min {u l : List Char} :
    ∀ i, i < (textBefore u l).length → ¬ occursAt u l i := by
  induction l with
  | nil => intro i hi; simp [textBefore] at hi
  | cons c t ih =>
    intro i hi
    by_cases h0 : u.isPrefixOf (c :: t) = true
    · rw [textBefore, if_pos h0] at hi
      simp at hi
    · rw [textBefore, if_neg h0] at hi
      cases i with
      | zero => simpa [occursAt] using h0
      | succ i' =>
        simp only [List.length_cons, Nat.succ_lt_succ_iff] at hi
        intro hocc
        exact ih i' hi (by simpa [occursAt] using hocc)

lemma textBefore_nil_iff {u l : List Char} :
    textBefore u l = [] ↔ (l = [] ∨ u.isPrefixOf l = true) := by
  cases l with
  | nil => simp [textBefore]
  | cons c t =>
    by_cases h0 : u.isPrefixOf (c :: t) = true
    · simp [textBefore, h0]
    · simp [textBefore, h0]

lemma textBefore_nil_u (p : List Char) : textBefore ([] : List Char) p = [] := by
  cases p with
  | nil => rfl
  | cons c t =>
    rw [textBefore, if_pos (by simp)]

lemma textBefore_take_self {u l : List Char} :
    textBefore u l = l.take (textBefore u l).length := by
  induction l with
  | nil => rfl
  | cons c t ih =>
    by_cases h0 : u.isPrefixOf (c :: t) = true
    · rw [textBefore, if_pos h0]
      rfl
    · rw [textBefore, if_neg h0]
      simp only [List.length_cons, List.take_succ_cons]
      rw [← ih]

lemma read_until_go_spec {u : List Char} (hu : u ≠ []) :
    ∀ (p : List Char) (σ : Tokenlizer) (buf : List Char), σ.pending = p →
    (∀ k, 1 ≤ k → k ≤ buf.length → ¬ (u.isSuffixOf (buf.take k) = true)) →
    (read_until_go u σ buf).1 = textBefore u (buf ++ p)
    ∧ (read_until_go u σ buf).2.pending = (buf ++ p).drop (textBefore u (buf ++ p)).length
    ∧ sameCfg σ (read_until_go u σ buf).2 := by
  intro p
  induction p with
  | nil =>
    intro σ buf hp H
    rw [read_until_go, read_of_nil hp]
    dsimp only
    have hself : textBefore u buf = buf := textBefore_eq_self (no_occur_of_check hu H)
    rw [List.append_nil, hself]
    refine ⟨rfl, ?_, sameCfg_rfl σ⟩
    rw [hp, List.drop_length]
  | cons c t ih =>
    intro σ buf hp H
    obtain ⟨h1, h2, h3⟩ := read_of_cons hp
    have hread : σ.read = (some c, (σ.read).2) := by rw [← h1]
    rw [read_until_go, hread]
    dsimp only
    by_cases hs : u.isSuffixOf (buf ++ [c]) = true
    · rw [if_pos hs]
      have hsuf : u <:+ buf ++ [c] := by simpa using hs
      obtain ⟨w, hw⟩ := hsuf
      have hwlen : w.length + u.length = buf.length + 1 := by
        have := congrArg List.length hw
        simpa using this
      have hfull : buf ++ c :: t = (w ++ u) ++ t := by
        rw [hw]
        simp
      have hocc : occursAt u (buf ++ c :: t) w.length := by
        unfold occursAt
        rw [hfull, List.append_assoc, List.drop_left]
        simp
      have hmin : ∀ i, i < w.length → ¬ occursAt u (buf ++ c :: t) i := by
        intro i hi hocc'
        obtain ⟨hlen, hsuf'⟩ := occursAt_take hu hocc'
        have hle : i + u.length ≤ buf.length := by omega
        rw [List.take_append_of_le_length hle] at hsuf'
        have hpos : 0 < u.length := List.length_pos.mpr hu
        exact H (i + u.length) (by omega) hle (by simpa using hsuf')
      have htbw : textBefore u (buf ++ c :: t) = w := by
        rw [textBefore_eq_take hocc hmin, hfull, List.append_assoc, List.take_left]
      refine ⟨?_, ?_, ?_⟩
      · rw [← hw, htbw]
        have hl : (w ++ u).length - u.length = w.length := by simp
        rw [hl, List.take_left]
      · obtain ⟨p1, p2⟩ := push_back_str_spec (σ.read).2 u
        rw [p1, h2, htbw, hfull, List.append_assoc, List.drop_left]
      · obtain ⟨p1, p2⟩ := push_back_str_spec (σ.read).2 u
        exact sameCfg_trans h3 p2
    · rw [if_neg hs]
      have H' : ∀ k, 1 ≤ k → k ≤ (buf ++ [c]).length →
          ¬ (u.isSuffixOf ((buf ++ [c]).take k) = true) := by
        intro k k1 k2
        by_cases hk : k ≤ buf.length
        · rw [List.take_append_of_le_length hk]
          exact H k k1 hk
        · have hk2 : (buf ++ [c]).length = buf.length + 1 := by simp
          have hke : k = (buf ++ [c]).length := by omega
          rw [hke, List.take_length]
          exact hs
      obtain ⟨i1, i2, i3⟩ := ih (σ.read).2 (buf ++ [c]) h2 H'
      have he : (buf ++ [c]) ++ t = buf ++ c :: t := by simp
      rw [he] at i1 i2
      exact ⟨i1, i2, sameCfg_trans h3 i3⟩

lemma read_until_spec {σ : Tokenlizer} {u : List Char} (hu : u ≠ []) :
    (σ.read_until u).1
      = (if textBefore u σ.pending = [] then none else some (textBefore u σ.pending))
    ∧ (σ.read_until u).2.pending = σ.pending.drop (textBefore u σ.pending).length
    ∧ sameCfg σ (σ.read_until u).2 := by
  obtain ⟨g1, g2, g3⟩ := read_until_go_spec hu σ.pending σ [] rfl
    (by intro k k1 k2; simp at k2; omega)
  simp only [List.nil_append] at g1 g2
  refine ⟨?_, by simpa [read_until] using g2, by simpa [read_until] using g3⟩
  by_cases he : textBefore u σ.pending = []
  · simp [read_until, g1, he]
  · simp [read_until, g1, he, List.length_pos]

end Mrush

namespace Mrush

open Tokenlizer

lemma bool_eq_false {b : Bool} (h : ¬ b = true) : b = false := by
  cases b
  · rfl
  · exact absurd rfl h

lemma pending_set_state (σ : Tokenlizer) (s : State) :
    ({ σ with state := s } : Tokenlizer).pending = σ.pending := rfl

lemma lm_set_state (σ : Tokenlizer) (s : State) :
    ({ σ with state := s } : Tokenlizer).lm = σ.lm := rfl

lemma rm_set_state (σ : Tokenlizer) (s : State) :
    ({ σ with state := s } : Tokenlizer).rm = σ.rm := rfl

lemma read_token_obs (σ : Tokenlizer) :
    (σ.read_token).1 = (stepP σ.lm σ.rm σ.state σ.pending).1
    ∧ (σ.read_token).2.state = (stepP σ.lm σ.rm σ.state σ.pending).2.1
    ∧ (σ.read_token).2.pending = (stepP σ.lm σ.rm σ.state σ.pending).2.2
    ∧ (σ.read_token).2.lm = σ.lm
    ∧ (σ.read_token).2.rm = σ.rm := by
  cases hst : σ.state with
  | Normal =>
    rw [read_token, hst]
    dsimp only
    rw [stepP, normalStepB]
    by_cases hpre : (σ.lm.isPrefixOf σ.pending = true ∧ strLen σ.lm = σ.lm.length)
    · obtain ⟨s1, s2, s3⟩ := starts_with_pos hpre.1 hpre.2
      have hsw : σ.starts_with σ.lm = (true, (σ.starts_with σ.lm).2) := by rw [← s1]
      rw [hsw, if_pos hpre]
      dsimp only
      refine ⟨rfl, rfl, ?_, ?_, ?_⟩
      · rw [pending_set_state]
        exact s2
      · rw [lm_set_state]
        exact s3.2.1
      · rw [rm_set_state]
        exact s3.2.2
    · have hfalse : (σ.starts_with σ.lm).1 = false
          ∧ (σ.starts_with σ.lm).2.pending = σ.pending
          ∧ sameCfg σ (σ.starts_with σ.lm).2 := by
        by_cases hbyte : strLen σ.lm = σ.lm.length
        · have hp : σ.lm.isPrefixOf σ.pending = false := by
            cases hq : σ.lm.isPrefixOf σ.pending
            · rfl
            · exact absurd ⟨hq, hbyte⟩ hpre
          exact starts_with_neg hp
        · exact starts_with_wide hbyte
      obtain ⟨s1, s2, s3⟩ := hfalse
      have hsw : σ.starts_with σ.lm = (false, (σ.starts_with σ.lm).2) := by rw [← s1]
      rw [hsw, if_neg hpre]
      dsimp only
      have hlm : σ.lm ≠ [] := by
        intro he
        apply hpre
        constructor
        · rw [he]
          simp
        · rw [he]
          rfl
      obtain ⟨u1, u2, u3⟩ := read_until_spec (σ := (σ.starts_with σ.lm).2) (u := σ.lm) hlm
      rw [s2] at u1 u2
      have cfin := sameCfg_trans s3 u3
      by_cases htb : textBefore σ.lm σ.pending = []
      · rw [if_pos htb]
        refine ⟨?_, ?_, ?_, ?_, ?_⟩
        · rw [u1, if_pos htb]
          rfl
        · rw [cfin.1, hst]
        · exact u2
        · exact cfin.2.1
        · exact cfin.2.2
      · rw [if_neg htb]
        refine ⟨?_, ?_, ?_, ?_, ?_⟩
        · rw [u1, if_neg htb]
          rfl
        · rw [cfin.1, hst]
        · exact u2
        · exact cfin.2.1
        · exact cfin.2.2
  | SyntaxToken =>
    rw [read_token, hst]
    dsimp only
    rw [stepP, inTagStepB]
    obtain ⟨w1, w2⟩ := skip_ws_spec σ.pending σ rfl
    by_cases h1 : (['#'] : List Char).isPrefixOf (σ.pending.dropWhile (fun c => c == ' ')) = true
    · obtain ⟨s1, s2, s3⟩ := starts_with_pos (σ := σ.skip_ws) (by rw [w1]; exact h1) (by decide)
      have hsw : σ.skip_ws.starts_with ['#']
          = (true, (σ.skip_ws.starts_with ['#']).2) := by rw [← s1]
      rw [hsw, if_pos h1]
      dsimp only
      have cfin := sameCfg_trans w2 s3
      refine ⟨rfl, ?_, ?_, ?_, ?_⟩
      · rw [cfin.1, hst]
      · rw [s2, w1]
        simp
      · exact cfin.2.1
      · exact cfin.2.2
    · have h1' : (['#'] : List Char).isPrefixOf (σ.pending.dropWhile (fun c => c == ' '))
          = false := bool_eq_false h1
      obtain ⟨s1, s2, s3⟩ := starts_with_neg (σ := σ.skip_ws) (by rw [w1]; exact h1')
      have hsw : σ.skip_ws.starts_with ['#']
          = (false, (σ.skip_ws.starts_with ['#']).2) := by rw [← s1]
      rw [hsw, if_neg h1]
      dsimp only
      rw [w1] at s2
      have c1 := sameCfg_trans w2 s3
      set τ1 : Tokenlizer := (σ.skip_ws.starts_with ['#']).2 with hτ1
      by_cases h2 : (['&'] : List Char).isPrefixOf (σ.pending.dropWhile (fun c => c == ' ')) = true
      · obtain ⟨t1, t2, t3⟩ := starts_with_pos (σ := τ1) (by rw [s2]; exact h2) (by decide)
        have hsw2 : τ1.starts_with ['&'] = (true, (τ1.starts_with ['&']).2) := by rw [← t1]
        rw [hsw2, if_pos h2]
        dsimp only
        have cfin := sameCfg_trans c1 t3
        refine ⟨rfl, ?_, ?_, ?_, ?_⟩
        · rw [cfin.1, hst]
        · rw [t2, s2]
          simp
        · exact cfin.2.1
        · exact cfin.2.2
      · have h2' : (['&'] : List Char).isPrefixOf (σ.pending.dropWhile (fun c => c == ' '))
            = false := bool_eq_false h2
        obtain ⟨t1, t2, t3⟩ := starts_with_neg (σ := τ1) (by rw [s2]; exact h2')
        have hsw2 : τ1.starts_with ['&'] = (false, (τ1.starts_with ['&']).2) := by rw [← t1]
        rw [hsw2, if_neg h2]
        dsimp only
        rw [s2] at t2
        have c2 := sameCfg_trans c1 t3
        set τ2 : Tokenlizer := (τ1.starts_with ['&']).2 with hτ2
        by_cases h3 : (['/'] : List Char).isPrefixOf (σ.pending.dropWhile (fun c => c == ' ')) = true
        · obtain ⟨v1, v2, v3⟩ := starts_with_pos (σ := τ2) (by rw [t2]; exact h3) (by decide)
          have hsw3 : τ2.starts_with ['/'] = (true, (τ2.starts_with ['/']).2) := by rw [← v1]
          rw [hsw3, if_pos h3]
          dsimp only
          have cfin := sameCfg_trans c2 v3
          refine ⟨rfl, ?_, ?_, ?_, ?_⟩
          · rw [cfin.1, hst]
          · rw [v2, t2]
            simp
          · exact cfin.2.1
          · exact cfin.2.2
        · have h3' : (['/'] : List Char).isPrefixOf (σ.pending.dropWhile (fun c => c == ' '))
              = false := bool_eq_false h3
          obtain ⟨v1, v2, v3⟩ := starts_with_neg (σ := τ2) (by rw [t2]; exact h3')
          have hsw3 : τ2.starts_with ['/'] = (false, (τ2.starts_with ['/']).2) := by rw [← v1]
          rw [hsw3, if_neg h3]
          dsimp only
          rw [t2] at v2
          have c3 := sameCfg_trans c2 v3
          set τ3 : Tokenlizer := (τ2.starts_with ['/']).2 with hτ3
          by_cases h4 : (['^'] : List Char).isPrefixOf (σ.pending.dropWhile (fun c => c == ' ')) = true
          · obtain ⟨x1, x2, x3⟩ := starts_with_pos (σ := τ3) (by rw [v2]; exact h4) (by decide)
            have hsw4 : τ3.starts_with ['^'] = (true, (τ3.starts_with ['^']).2) := by rw [← x1]
            rw [hsw4, if_pos h4]
            dsimp only
            have cfin := sameCfg_trans c3 x3
            refine ⟨rfl, ?_, ?_, ?_, ?_⟩
            · rw [cfin.1, hst]
            · rw [x2, v2]
              simp
            · exact cfin.2.1
            · exact cfin.2.2
          · have h4' : (['^'] : List Char).isPrefixOf (σ.pending.dropWhile (fun c => c == ' '))
                = false := bool_eq_false h4
            obtain ⟨x1, x2, x3⟩ := starts_with_neg (σ := τ3) (by rw [v2]; exact h4')
            have hsw4 : τ3.starts_with ['^'] = (false, (τ3.starts_with ['^']).2) := by rw [← x1]
            rw [hsw4, if_neg h4]
            dsimp only
            rw [v2] at x2
            have c4 := sameCfg_trans c3 x3
            set τ4 : Tokenlizer := (τ3.starts_with ['^']).2 with hτ4
            by_cases h5 : (σ.rm.isPrefixOf (σ.pending.dropWhile (fun c => c == ' ')) = true
                ∧ strLen σ.rm = σ.rm.length)
            · have h5' : σ.rm.isPrefixOf τ4.pending = true := by rw [x2]; exact h5.1
              obtain ⟨y1, y2, y3⟩ := starts_with_pos (σ := τ4) h5' h5.2
              have hsw5 : τ4.starts_with σ.rm = (true, (τ4.starts_with σ.rm).2) := by rw [← y1]
              rw [hsw5, if_pos h5]
              dsimp only
              have cfin := sameCfg_trans c4 y3
              refine ⟨rfl, rfl, ?_, ?_, ?_⟩
              · rw [pending_set_state, y2, x2]
              · rw [lm_set_state]
                exact cfin.2.1
              · rw [rm_set_state]
                exact cfin.2.2
            · have hfalse : (τ4.starts_with σ.rm).1 = false
                  ∧ (τ4.starts_with σ.rm).2.pending = τ4.pending
                  ∧ sameCfg τ4 (τ4.starts_with σ.rm).2 := by
                by_cases hbyte : strLen σ.rm = σ.rm.length
                · have hp : σ.rm.isPrefixOf τ4.pending = false := by
                    rw [x2]
                    cases hq : σ.rm.isPrefixOf (σ.pending.dropWhile (fun c => c == ' '))
                    · rfl
                    · exact absurd ⟨hq, hbyte⟩ h5
                  exact starts_with_neg hp
                · exact starts_with_wide hbyte
              obtain ⟨y1, y2, y3⟩ := hfalse
              have hsw5 : τ4.starts_with σ.rm = (false, (τ4.starts_with σ.rm).2) := by rw [← y1]
              rw [hsw5, if_neg h5]
              dsimp only
              rw [x2] at y2
              have c5 := sameCfg_trans c4 y3
              set τ5 : Tokenlizer := (τ4.starts_with σ.rm).2 with hτ5
              obtain ⟨r1, r2, r3⟩ := read_while_spec τ5 is_id
              rw [y2] at r1 r2
              have cfin := sameCfg_trans c5 r3
              by_cases htW : (σ.pending.dropWhile (fun c => c == ' ')).takeWhile is_id = []
              · rw [if_neg (fun hcon => hcon htW)]
                have hdW : (σ.pending.dropWhile (fun c => c == ' ')).dropWhile is_id
                    = σ.pending.dropWhile (fun c => c == ' ') := by
                  conv_rhs => rw [← List.takeWhile_append_dropWhile is_id
                    (σ.pending.dropWhile (fun c => c == ' '))]
                  rw [htW, List.nil_append]
                refine ⟨?_, ?_, ?_, ?_, ?_⟩
                · rw [r1, if_pos htW]
                  rfl
                · rw [cfin.1, hst]
                · rw [r2, hdW]
                · exact cfin.2.1
                · exact cfin.2.2
              · rw [if_pos htW]
                refine ⟨?_, ?_, ?_, ?_, ?_⟩
                · rw [r1, if_neg htW]
                  rfl
                · rw [cfin.1, hst]
                · exact r2
                · exact cfin.2.1
                · exact cfin.2.2

end Mrush

namespace Mrush

open Tokenlizer

lemma dropWhile_twice (q : Char → Bool) (l : List Char) :
    (l.dropWhile q).dropWhile q = l.dropWhile q := by
  induction l with
  | nil => rfl
  | cons c t ih =>
    by_cases h : q c = true
    · rw [List.dropWhile_cons_of_pos h]
      exact ih
    · rw [List.dropWhile_cons_of_neg h, List.dropWhile_cons_of_neg h]

lemma inTagStepB_none {rm p : List Char} (h : (inTagStepB rm p).1 = none) :
    (inTagStepB rm p).2.1 = State.SyntaxToken
    ∧ (inTagStepB rm p).2.2 = p.dropWhile (fun c => c == ' ')
    ∧ (inTagStepB rm (p.dropWhile (fun c => c == ' '))).1 = none := by
  have hqq : (p.dropWhile (fun c => c == ' ')).dropWhile (fun c => c == ' ')
      = p.dropWhile (fun c => c == ' ') := dropWhile_twice _ _
  rw [inTagStepB] at h
  rw [inTagStepB, inTagStepB, hqq]
  by_cases c1 : (['#'] : List Char).isPrefixOf (p.dropWhile (fun c => c == ' ')) = true
  · rw [if_pos c1] at h
    exact Option.noConfusion h
  · rw [if_neg c1] at h
    rw [if_neg c1]
    by_cases c2 : (['&'] : List Char).isPrefixOf (p.dropWhile (fun c => c == ' ')) = true
    · rw [if_pos c2] at h
      exact Option.noConfusion h
    · rw [if_neg c2] at h
      rw [if_neg c2]
      by_cases c3 : (['/'] : List Char).isPrefixOf (p.dropWhile (fun c => c == ' ')) = true
      · rw [if_pos c3] at h
        exact Option.noConfusion h
      · rw [if_neg c3] at h
        rw [if_neg c3]
        by_cases c4 : (['^'] : List Char).isPrefixOf (p.dropWhile (fun c => c == ' ')) = true
        · rw [if_pos c4] at h
          exact Option.noConfusion h
        · rw [if_neg c4] at h
          rw [if_neg c4]
          by_cases c5 : (rm.isPrefixOf (p.dropWhile (fun c => c == ' ')) = true
              ∧ strLen rm = rm.length)
          · rw [if_pos c5] at h
            exact Option.noConfusion h
          · rw [if_neg c5] at h
            rw [if_neg c5]
            by_cases cW : (p.dropWhile (fun c => c == ' ')).takeWhile is_id ≠ []
            · rw [if_pos cW] at h
              exact Option.noConfusion h
            · rw [if_neg cW]
              exact ⟨rfl, rfl, rfl⟩

lemma normalStep_none {lm p : List Char} (h : (normalStep lm p).1 = none) :
    (normalStep lm p).2.1 = State.Normal
    ∧ (normalStep lm p).2.2 = p
    ∧ p = [] := by
  rw [normalStep] at h
  by_cases c1 : lm.isPrefixOf p = true
  · rw [if_pos c1] at h
    exact Option.noConfusion h
  · rw [if_neg c1] at h
    by_cases c2 : textBefore lm p = []
    · have hpe : p = [] := (textBefore_nil_iff.mp c2).resolve_right c1
      rw [normalStep, if_neg c1, if_pos c2]
      refine ⟨rfl, ?_, hpe⟩
      rw [c2]
      simp
    · rw [if_neg c2] at h
      exact Option.noConfusion h

lemma normalStepB_none {lm p : List Char} (h : (normalStepB lm p).1 = none) :
    (normalStepB lm p).2.1 = State.Normal
    ∧ (normalStepB lm p).2.2 = p := by
  rw [normalStepB] at h
  by_cases c1 : (lm.isPrefixOf p = true ∧ strLen lm = lm.length)
  · rw [if_pos c1] at h
    exact Option.noConfusion h
  · rw [if_neg c1] at h
    by_cases c2 : textBefore lm p = []
    · rw [normalStepB, if_neg c1, if_pos c2]
      refine ⟨rfl, ?_⟩
      rw [c2]
      simp
    · rw [if_neg c2] at h
      exact Option.noConfusion h

lemma stepP_none_step {lm rm : List Char} {st : State} {p : List Char}
    (h : (stepP lm rm st p).1 = none) :
    (stepP lm rm (stepP lm rm st p).2.1 (stepP lm rm st p).2.2).1 = none := by
  cases st with
  | Normal =>
    rw [stepP] at h
    obtain ⟨a1, a2⟩ := normalStepB_none h
    rw [stepP, a1, a2, stepP]
    exact h
  | SyntaxToken =>
    rw [stepP] at h
    obtain ⟨a1, a2, a3⟩ := inTagStepB_none h
    rw [stepP, a1, a2, stepP]
    exact a3

lemma stepP_states (lm rm : List Char) (st : State) (p : List Char) :
    (stepP lm rm st p).2.1 = st
    ∨ (st = State.Normal ∧ (stepP lm rm st p).1 = some Token.LMustache
        ∧ (stepP lm rm st p).2.1 = State.SyntaxToken)
    ∨ (st = State.SyntaxToken ∧ (stepP lm rm st p).1 = some Token.RMustache
        ∧ (stepP lm rm st p).2.1 = State.Normal) := by
  cases st with
  | Normal =>
    rw [stepP, normalStepB]
    by_cases c1 : (lm.isPrefixOf p = true ∧ strLen lm = lm.length)
    · rw [if_pos c1]
      exact Or.inr (Or.inl ⟨rfl, rfl, rfl⟩)
    · rw [if_neg c1]
      by_cases c2 : textBefore lm p = []
      · rw [if_pos c2]
        exact Or.inl rfl
      · rw [if_neg c2]
        exact Or.inl rfl
  | SyntaxToken =>
    rw [stepP, inTagStepB]
    by_cases c1 : (['#'] : List Char).isPrefixOf (p.dropWhile (fun c => c == ' ')) = true
    · rw [if_pos c1]
      exact Or.inl rfl
    · rw [if_neg c1]
      by_cases c2 : (['&'] : List Char).isPrefixOf (p.dropWhile (fun c => c == ' ')) = true
      · rw [if_pos c2]
        exact Or.inl rfl
      · rw [if_neg c2]
        by_cases c3 : (['/'] : List Char).isPrefixOf (p.dropWhile (fun c => c == ' ')) = true
        · rw [if_pos c3]
          exact Or.inl rfl
        · rw [if_neg c3]
          by_cases c4 : (['^'] : List Char).isPrefixOf (p.dropWhile (fun c => c == ' ')) = true
          · rw [if_pos c4]
            exact Or.inl rfl
          · rw [if_neg c4]
            by_cases c5 : (rm.isPrefixOf (p.dropWhile (fun c => c == ' ')) = true
                ∧ strLen rm = rm.length)
            · rw [if_pos c5]
              exact Or.inr (Or.inr ⟨rfl, rfl, rfl⟩)
            · rw [if_neg c5]
              by_cases cW : (p.dropWhile (fun c => c == ' ')).takeWhile is_id ≠ []
              · rw [if_pos cW]
                exact Or.inl rfl
              · rw [if_neg cW]
                exact Or.inl rfl

lemma stepP_good {lm rm : List Char} {st : State} {p : List Char} {tok : Token}
    (h : (stepP lm rm st p).1 = some tok) : goodToken lm tok := by
  cases st with
  | Normal =>
    rw [stepP, normalStepB] at h
    by_cases c1 : (lm.isPrefixOf p = true ∧ strLen lm = lm.length)
    · rw [if_pos c1] at h
      rw [← Option.some.inj h]
      exact trivial
    · rw [if_neg c1] at h
      by_cases c2 : textBefore lm p = []
      · rw [if_pos c2] at h
        exact Option.noConfusion h
      · rw [if_neg c2] at h
        rw [← Option.some.inj h]
        have hlm : lm ≠ [] := by
          intro he
          apply c2
          rw [he, textBefore_nil_u]
        refine ⟨c2, ?_⟩
        intro i hcon
        by_cases hi : i < (textBefore lm p).length
        · have h1 : lm <+: (textBefore lm p).drop i := by simpa using hcon
          have h2 : (textBefore lm p).drop i <+: p.drop i := by
            conv_lhs => rw [textBefore_take_self (u := lm) (l := p)]
            rw [List.drop_take]
            exact List.take_prefix _ _
          exact textBefore_min i hi (by simpa [occursAt] using h1.trans h2)
        · push_neg at hi
          have hd : (textBefore lm p).drop i = [] := List.drop_eq_nil_of_le hi
          rw [hd] at hcon
          exact hlm (by simpa using hcon)
  | SyntaxToken =>
    rw [stepP, inTagStepB] at h
    by_cases c1 : (['#'] : List Char).isPrefixOf (p.dropWhile (fun c => c == ' ')) = true
    · rw [if_pos c1] at h
      rw [← Option.some.inj h]
      exact trivial
    · rw [if_neg c1] at h
      by_cases c2 : (['&'] : List Char).isPrefixOf (p.dropWhile (fun c => c == ' ')) = true
      · rw [if_pos c2] at h
        rw [← Option.some.inj h]
        exact trivial
      · rw [if_neg c2] at h
        by_cases c3 : (['/'] : List Char).isPrefixOf (p.dropWhile (fun c => c == ' ')) = true
        · rw [if_pos c3] at h
          rw [← Option.some.inj h]
          exact trivial
        · rw [if_neg c3] at h
          by_cases c4 : (['^'] : List Char).isPrefixOf (p.dropWhile (fun c => c == ' ')) = true
          · rw [if_pos c4] at h
            rw [← Option.some.inj h]
            exact trivial
          · rw [if_neg c4] at h
            by_cases c5 : (rm.isPrefixOf (p.dropWhile (fun c => c == ' ')) = true
                ∧ strLen rm = rm.length)
            · rw [if_pos c5] at h
              rw [← Option.some.inj h]
              exact trivial
            · rw [if_neg c5] at h
              by_cases cW : (p.dropWhile (fun c => c == ' ')).takeWhile is_id ≠ []
              · rw [if_pos cW] at h
                rw [← Option.some.inj h]
                refine ⟨cW, ?_⟩
                intro ch hch
                exact List.mem_takeWhile_imp hch
              · rw [if_neg cW] at h
                exact Option.noConfusion h

lemma read_token_none_step {σ : Tokenlizer} (h : (σ.read_token).1 = none) :
    (((σ.read_token).2).read_token).1 = none := by
  obtain ⟨m1, m2, m3, m4, m5⟩ := read_token_obs σ
  obtain ⟨n1, n2, n3, n4, n5⟩ := read_token_obs (σ.read_token).2
  rw [h] at m1
  rw [n1, m4, m5, m2, m3]
  exact stepP_none_step m1.symm

lemma normalStepB_eq {lm p : List Char} (hb : strLen lm = lm.length) :
    normalStepB lm p = normalStep lm p := by
  rw [normalStepB, normalStep]
  by_cases hp : lm.isPrefixOf p = true
  · rw [if_pos ⟨hp, hb⟩, if_pos hp]
  · rw [if_neg (fun hc => hp hc.1), if_neg hp]

lemma inTagStepB_eq {rm p : List Char} (hb : strLen rm = rm.length) :
    inTagStepB rm p = inTagStep rm p := by
  rw [inTagStepB, inTagStep]
  by_cases h5 : rm.isPrefixOf (p.dropWhile (fun c => c == ' ')) = true
  · have hcomb : (rm.isPrefixOf (p.dropWhile (fun c => c == ' ')) = true
        ∧ strLen rm = rm.length) := ⟨h5, hb⟩
    rw [if_pos hcomb, if_pos h5]
  · have hcomb : ¬ (rm.isPrefixOf (p.dropWhile (fun c => c == ' ')) = true
        ∧ strLen rm = rm.length) := fun hc => h5 hc.1
    rw [if_neg hcomb, if_neg h5]

end Mrush

namespace Mrush

open Tokenlizer

/-- C1 counterexample: the claim fails for a non-ASCII close delimiter.
With close delimiter the single character 'é' (two UTF-8 bytes, one
character) and pending stream 'é','x' in the tag state, the program's
`starts_with` calls `read_str(rm.len())` with `len` in bytes, reads two
characters, fails the comparison, and the request gives the none-signal —
while the claimed priority order (`inTagStep`) asserts `RMustache`. -/
theorem c1_counterexample :
    ((⟨['é', 'x'], [], State.SyntaxToken, ['{', '{'], ['é']⟩ : Tokenlizer).read_token).1 = none
    ∧ (inTagStep ['é'] ['é', 'x']).1 = some Token.RMustache
    ∧ ¬ ((((⟨['é', 'x'], [], State.SyntaxToken, ['{', '{'], ['é']⟩ : Tokenlizer).read_token).1,
          ((⟨['é', 'x'], [], State.SyntaxToken, ['{', '{'], ['é']⟩ : Tokenlizer).read_token).2.state,
          ((⟨['é', 'x'], [], State.SyntaxToken, ['{', '{'], ['é']⟩ : Tokenlizer).read_token).2.pending)
        = inTagStep ['é'] ['é', 'x']) := by
  have h1 : ((⟨['é', 'x'], [], State.SyntaxToken, ['{', '{'], ['é']⟩ : Tokenlizer).read_token).1
      = none := by
    rw [(read_token_obs (⟨['é', 'x'], [], State.SyntaxToken, ['{', '{'], ['é']⟩ : Tokenlizer)).1]
    decide
  have h2 : (inTagStep ['é'] ['é', 'x']).1 = some Token.RMustache := by decide
  refine ⟨h1, h2, ?_⟩
  intro heq
  have h3 := congrArg Prod.fst heq
  rw [h1, h2] at h3
  exact Option.noConfusion h3

/-- C1 (amended): for a close delimiter whose UTF-8 byte length equals its
character count (in particular the conventional ASCII delimiters), a
`nextToken` request in the `InTag` state first discards literal spaces
(only ' '), then tests in the fixed priority order `#` (Pound),
`&` (UnescapeTag), `/` (Slash), `^` (Hat), close delimiter (RMustache,
moving to `Normal`), then a maximal non-empty identifier run (Id); when none
of the six match it gives the none-signal with no error.  Formally: the
emitted token, the new state and the new pending stream coincide with the
specification function `inTagStep`. -/
theorem c1_in_tag_priority (σ : Tokenlizer) (h : σ.state = State.SyntaxToken)
    (hb : strLen σ.rm = σ.rm.length) :
    ((σ.read_token).1, (σ.read_token).2.state, (σ.read_token).2.pending)
      = inTagStep σ.rm σ.pending := by
  obtain ⟨m1, m2, m3, m4, m5⟩ := read_token_obs σ
  rw [h] at m1 m2 m3
  rw [stepP] at m1 m2 m3
  rw [inTagStepB_eq hb] at m1 m2 m3
  rw [m1, m2, m3]

/-- Witness for C1 at a concrete tokenizer in the `InTag` state. -/
theorem c1_in_tag_priority_witness :
    (((⟨['#', 'x', '}', '}'], [], State.SyntaxToken, ['{', '{'], ['}', '}']⟩ :
        Tokenlizer).read_token).1,
      ((⟨['#', 'x', '}', '}'], [], State.SyntaxToken, ['{', '{'], ['}', '}']⟩ :
        Tokenlizer).read_token).2.state,
      ((⟨['#', 'x', '}', '}'], [], State.SyntaxToken, ['{', '{'], ['}', '}']⟩ :
        Tokenlizer).read_token).2.pending)
      = (some Token.Pound, State.SyntaxToken, ['x', '}', '}']) := by
  have h := c1_in_tag_priority
    (⟨['#', 'x', '}', '}'], [], State.SyntaxToken, ['{', '{'], ['}', '}']⟩ : Tokenlizer) rfl
    (by decide)
  rw [h]
  decide

/-- C2 counterexample: the claim fails for a non-ASCII open delimiter.
With open delimiter the single character 'é' and input 'é','x', the
program's `starts_with` reads `rm.len()` = two characters (bytes) and fails,
then `read_until` finds the delimiter at the very start and yields the
none-signal: the request returns none on non-empty input and never emits
`LMustache` although the input begins with the delimiter, refuting both
iff-clauses of the claim. -/
theorem c2_counterexample :
    (Tokenlizer.new ['é'] ['}', '}'] ['é', 'x']).pending ≠ []
    ∧ ['é'].isPrefixOf (Tokenlizer.new ['é'] ['}', '}'] ['é', 'x']).pending = true
    ∧ ((Tokenlizer.new ['é'] ['}', '}'] ['é', 'x']).read_token).1 ≠ some Token.LMustache
    ∧ ((Tokenlizer.new ['é'] ['}', '}'] ['é', 'x']).read_token).1 = none := by
  have h1 : ((Tokenlizer.new ['é'] ['}', '}'] ['é', 'x']).read_token).1 = none := by
    rw [(read_token_obs (Tokenlizer.new ['é'] ['}', '}'] ['é', 'x'])).1]
    decide
  refine ⟨by decide, by decide, ?_, h1⟩
  rw [h1]
  decide

/-- C2 (amended): for an open delimiter that is non-empty and whose UTF-8
byte length equals its character count (in particular the conventional ASCII
delimiters), a `nextToken` request in the `Normal` state returns `LMustache`
and moves to `InTag` exactly when the pending input begins with the open
delimiter; otherwise it returns `Text` of the non-empty run before the next
occurrence of the open delimiter (all the rest when it never occurs); and it
gives the none-signal exactly when no input remains. -/
theorem c2_normal_dispatch (σ : Tokenlizer) (h : σ.state = State.Normal)
    (hlm : σ.lm ≠ []) (hb : strLen σ.lm = σ.lm.length) :
    ((σ.read_token).1 = some Token.LMustache ↔ σ.lm.isPrefixOf σ.pending = true)
    ∧ (σ.lm.isPrefixOf σ.pending = true →
        (σ.read_token).2.state = State.SyntaxToken
        ∧ (σ.read_token).2.pending = σ.pending.drop σ.lm.length)
    ∧ (σ.lm.isPrefixOf σ.pending = false → σ.pending ≠ [] →
        (σ.read_token).1 = some (Token.Text (textBefore σ.lm σ.pending))
        ∧ textBefore σ.lm σ.pending ≠ []
        ∧ (σ.read_token).2.state = State.Normal
        ∧ (σ.read_token).2.pending = σ.pending.drop (textBefore σ.lm σ.pending).length)
    ∧ ((σ.read_token).1 = none ↔ σ.pending = []) := by
  obtain ⟨m1, m2, m3, m4, m5⟩ := read_token_obs σ
  rw [h] at m1 m2 m3
  rw [stepP] at m1 m2 m3
  rw [normalStepB_eq hb] at m1 m2 m3
  refine ⟨⟨?_, ?_⟩, ?_, ?_, ⟨?_, ?_⟩⟩
  · intro hlmu
    by_contra hc
    rw [m1, normalStep, if_neg hc] at hlmu
    by_cases c2 : textBefore σ.lm σ.pending = []
    · rw [if_pos c2] at hlmu
      exact Option.noConfusion hlmu
    · rw [if_neg c2] at hlmu
      simp at hlmu
  · intro hp
    rw [m1, normalStep, if_pos hp]
  · intro hp
    constructor
    · rw [m2, normalStep, if_pos hp]
    · rw [m3, normalStep, if_pos hp]
  · intro hf hne
    have htb : textBefore σ.lm σ.pending ≠ [] := by
      intro hc
      rcases textBefore_nil_iff.mp hc with h1 | h2
      · exact hne h1
      · rw [h2] at hf
        exact Bool.noConfusion hf
    have hnc : ¬ (σ.lm.isPrefixOf σ.pending = true) := by
      intro hcc
      rw [hf] at hcc
      exact Bool.noConfusion hcc
    refine ⟨?_, htb, ?_, ?_⟩
    · rw [m1, normalStep, if_neg hnc, if_neg htb]
    · rw [m2, normalStep, if_neg hnc, if_neg htb]
    · rw [m3, normalStep, if_neg hnc, if_neg htb]
  · intro hn
    rw [m1] at hn
    exact (normalStep_none hn).2.2
  · intro hpe
    have hnc : ¬ (σ.lm.isPrefixOf σ.pending = true) := by
      rw [hpe]
      intro hcc
      have h0 : σ.lm = [] := by simpa using hcc
      exact hlm h0
    have htb : textBefore σ.lm σ.pending = [] := by
      rw [hpe]
      rfl
    rw [m1, normalStep, if_neg hnc, if_pos htb]

/-- Witness for C2 at a concrete tokenizer in the `Normal` state. -/
theorem c2_normal_dispatch_witness :
    ((Tokenlizer.new ['{', '{'] ['}', '}'] ['a', 'b', '{', '{']).read_token).1
      = some (Token.Text ['a', 'b']) := by
  have h := (c2_normal_dispatch (Tokenlizer.new ['{', '{'] ['}', '}'] ['a', 'b', '{', '{'])
    rfl (by decide) (by decide)).2.2.1 (by decide) (by decide)
  rw [h.1]
  decide

/-- C3: the state starts as `Normal` at construction, and a `nextToken`
request changes the state only when it emits `LMustache` (from `Normal`,
having recognized the open delimiter) or `RMustache` (from `InTag`, having
recognized the close delimiter); every other request leaves the state
unchanged. -/
theorem c3_state_transitions :
    (∀ (lm rm reader : List Char), (Tokenlizer.new lm rm reader).state = State.Normal)
    ∧ ∀ σ : Tokenlizer,
      (σ.read_token).2.state = σ.state
      ∨ (σ.state = State.Normal ∧ (σ.read_token).1 = some Token.LMustache
          ∧ (σ.read_token).2.state = State.SyntaxToken)
      ∨ (σ.state = State.SyntaxToken ∧ (σ.read_token).1 = some Token.RMustache
          ∧ (σ.read_token).2.state = State.Normal) := by
  refine ⟨fun lm rm reader => rfl, fun σ => ?_⟩
  obtain ⟨m1, m2, m3, m4, m5⟩ := read_token_obs σ
  rcases stepP_states σ.lm σ.rm σ.state σ.pending with hA | hB | hC
  · exact Or.inl (by rw [m2, hA])
  · exact Or.inr (Or.inl ⟨hB.1, by rw [m1, hB.2.1], by rw [m2, hB.2.2]⟩)
  · exact Or.inr (Or.inr ⟨hC.1, by rw [m1, hC.2.1], by rw [m2, hC.2.2]⟩)

/-- C4: for a non-empty delimiter `u`, `readUntil` returns the content
before the first occurrence of `u` (the whole remaining input when `u` never
occurs), pushes the matched occurrence back so that the pending stream drops
exactly that content, and gives the none-signal exactly when the content is
empty, i.e. when the input is empty or starts with `u`. -/
theorem c4_read_until_contract (σ : Tokenlizer) (u : List Char) (hu : u ≠ []) :
    (σ.read_until u).1
      = (if textBefore u σ.pending = [] then none else some (textBefore u σ.pending))
    ∧ (σ.read_until u).2.pending = σ.pending.drop (textBefore u σ.pending).length
    ∧ ((σ.read_until u).1 = none ↔ (σ.pending = [] ∨ u.isPrefixOf σ.pending = true))
    ∧ sameCfg σ (σ.read_until u).2 := by
  obtain ⟨g1, g2, g3⟩ := read_until_spec (σ := σ) hu
  refine ⟨g1, g2, ?_, g3⟩
  rw [g1]
  by_cases he : textBefore u σ.pending = []
  · rw [if_pos he]
    simpa using textBefore_nil_iff.mp he
  · rw [if_neg he]
    constructor
    · intro hcc
      exact Option.noConfusion hcc
    · intro hcc
      exact absurd (textBefore_nil_iff.mpr hcc) he

/-- Witness for C4 at a concrete stream and delimiter. -/
theorem c4_read_until_contract_witness :
    ((Tokenlizer.new ['{', '{'] ['}', '}'] ['a', 'b', '}', '}', 'c', 'd']).read_until
        ['}', '}']).1 = some ['a', 'b']
    ∧ ((Tokenlizer.new ['{', '{'] ['}', '}'] ['a', 'b', '}', '}', 'c', 'd']).read_until
        ['}', '}']).2.pending = ['}', '}', 'c', 'd'] := by
  have h := c4_read_until_contract
    (Tokenlizer.new ['{', '{'] ['}', '}'] ['a', 'b', '}', '}', 'c', 'd'])
    ['}', '}'] (by decide)
  constructor
  · rw [h.1]
    decide
  · rw [h.2.1]
    decide

/-- C5 counterexample: the claim fails for a non-ASCII `startsWith`
argument.  With the single character 'é' next on the stream,
`startsWith(['é'])` calls `read_str(s.len())` with `len` = 2 UTF-8 bytes,
reads two characters, fails the comparison and returns false with the
stream restored, although the next `len(s)` = 1 characters equal `s`. -/
theorem c5_counterexample :
    ['é'].isPrefixOf (Tokenlizer.new ['{', '{'] ['}', '}'] ['é', 'x']).pending = true
    ∧ ((Tokenlizer.new ['{', '{'] ['}', '}'] ['é', 'x']).starts_with ['é']).1 = false
    ∧ ((Tokenlizer.new ['{', '{'] ['}', '}'] ['é', 'x']).starts_with ['é']).2.pending
      = ['é', 'x'] := by
  refine ⟨by decide, by decide, by decide⟩

/-- C5 (amended): `readExact` is all-or-nothing (too few characters:
none-signal and the observable stream unchanged).  `startsWith` consumes
exactly its argument and returns true when the pending stream starts with it
and the argument's UTF-8 byte length equals its character count (it is
all-ASCII); in every other case — the argument not next on the stream, or
its byte length exceeding its character count — it returns false leaving the
observable stream unchanged. -/
theorem c5_all_or_nothing (σ : Tokenlizer) (n : Nat) (s : List Char) :
    (σ.pending.length < n →
      (σ.read_str n).1 = none ∧ (σ.read_str n).2.pending = σ.pending
      ∧ sameCfg σ (σ.read_str n).2)
    ∧ (s.isPrefixOf σ.pending = true → strLen s = s.length →
      (σ.starts_with s).1 = true ∧ (σ.starts_with s).2.pending = σ.pending.drop s.length
      ∧ sameCfg σ (σ.starts_with s).2)
    ∧ (s.isPrefixOf σ.pending = false →
      (σ.starts_with s).1 = false ∧ (σ.starts_with s).2.pending = σ.pending
      ∧ sameCfg σ (σ.starts_with s).2)
    ∧ (strLen s ≠ s.length →
      (σ.starts_with s).1 = false ∧ (σ.starts_with s).2.pending = σ.pending
      ∧ sameCfg σ (σ.starts_with s).2) :=
  ⟨fun h => read_str_gt h, fun h hb => starts_with_pos h hb, fun h => starts_with_neg h,
    fun hb => starts_with_wide hb⟩

/-- Witness for C5 at a concrete stream. -/
theorem c5_all_or_nothing_witness :
    ((Tokenlizer.new ['{', '{'] ['}', '}'] ['a', 'b']).read_str 5).1 = none
    ∧ ((Tokenlizer.new ['{', '{'] ['}', '}'] ['a', 'b']).read_str 5).2.pending = ['a', 'b']
    ∧ ((Tokenlizer.new ['{', '{'] ['}', '}'] ['a', 'b']).starts_with ['a']).1 = true
    ∧ ((Tokenlizer.new ['{', '{'] ['}', '}'] ['a', 'b']).starts_with ['b']).1 = false
    ∧ ((Tokenlizer.new ['{', '{'] ['}', '}'] ['a', 'b']).starts_with ['é']).1 = false := by
  refine ⟨?_, ?_, ?_, ?_, ?_⟩
  · exact ((c5_all_or_nothing (Tokenlizer.new ['{', '{'] ['}', '}'] ['a', 'b']) 5 []).1
      (by decide)).1
  · have h := ((c5_all_or_nothing (Tokenlizer.new ['{', '{'] ['}', '}'] ['a', 'b']) 5 []).1
      (by decide)).2.1
    rw [h]
    decide
  · exact ((c5_all_or_nothing (Tokenlizer.new ['{', '{'] ['}', '}'] ['a', 'b']) 0 ['a']).2.1
      (by decide) (by decide)).1
  · exact ((c5_all_or_nothing (Tokenlizer.new ['{', '{'] ['}', '}'] ['a', 'b']) 0 ['b']).2.2.1
      (by decide)).1
  · exact ((c5_all_or_nothing (Tokenlizer.new ['{', '{'] ['}', '}'] ['a', 'b']) 0 ['é']).2.2.2
      (by decide)).1

/-- C6: pushback round-trips: after `pushBackChar c` the next `readChar`
returns `c`, and after `pushBackStr s` a `readExact` of `s.length`
characters returns `s`, for every string `s` including the empty and
multi-character ones. -/
theorem c6_pushback_roundtrip (σ : Tokenlizer) (c : Char) (s : List Char) :
    ((σ.push_back_char c).read).1 = some c
    ∧ ((σ.push_back_str s).read_str s.length).1 = some s := by
  constructor
  · rcases σ with ⟨r, b, st, l, m⟩
    simp [push_back_char, Tokenlizer.read]
  · obtain ⟨p1, p2⟩ := push_back_str_spec σ s
    have hlen : s.length ≤ (σ.push_back_str s).pending.length := by
      rw [p1]
      simp
    obtain ⟨r1, r2, r3⟩ := read_str_le hlen
    rw [r1, p1, List.take_left]

end Mrush

namespace Mrush

open Tokenlizer

/-- C7: tokenizing the five characters open-brace open-brace bang
close-brace close-brace with the conventional delimiters yields exactly
`LMustache` and then the none-signal: the bang matches none of the five
markers and is not an identifier character, so the sequence silently ends
with no error and no `RMustache`. -/
theorem c7_unrecognized_tag :
    ((Tokenlizer.new ['{', '{'] ['}', '}'] ['{', '{', '!', '}', '}']).read_token).1
      = some Token.LMustache
    ∧ (((Tokenlizer.new ['{', '{'] ['}', '}'] ['{', '{', '!', '}', '}']).read_token).2.read_token).1
      = none := by
  constructor
  · rw [(read_token_obs (Tokenlizer.new ['{', '{'] ['}', '}'] ['{', '{', '!', '}', '}'])).1]
    decide
  · have o := read_token_obs (Tokenlizer.new ['{', '{'] ['}', '}'] ['{', '{', '!', '}', '}'])
    rw [(read_token_obs
        ((Tokenlizer.new ['{', '{'] ['}', '}'] ['{', '{', '!', '}', '}']).read_token).2).1,
      o.2.2.2.1, o.2.2.2.2, o.2.1, o.2.2.1]
    decide

/-- C8 counterexample: the tokenizer starts in the `Normal` state, so the
bare input "abc123" is emitted as a single `Text` token, not as the `Id`
token the claim asserts. -/
theorem c8_counterexample :
    ((Tokenlizer.new ['{', '{'] ['}', '}'] ['a', 'b', 'c', '1', '2', '3']).read_token).1
      = some (Token.Text ['a', 'b', 'c', '1', '2', '3'])
    ∧ ((Tokenlizer.new ['{', '{'] ['}', '}'] ['a', 'b', 'c', '1', '2', '3']).read_token).1
      ≠ some (Token.Id ['a', 'b', 'c', '1', '2', '3'])
    ∧ (((Tokenlizer.new ['{', '{'] ['}', '}'] ['a', 'b', 'c', '1', '2', '3']).read_token).2.read_token).1
      = none := by
  refine ⟨?_, ?_, ?_⟩
  · rw [(read_token_obs (Tokenlizer.new ['{', '{'] ['}', '}'] ['a', 'b', 'c', '1', '2', '3'])).1]
    decide
  · rw [(read_token_obs (Tokenlizer.new ['{', '{'] ['}', '}'] ['a', 'b', 'c', '1', '2', '3'])).1]
    decide
  · have o := read_token_obs (Tokenlizer.new ['{', '{'] ['}', '}'] ['a', 'b', 'c', '1', '2', '3'])
    rw [(read_token_obs
        ((Tokenlizer.new ['{', '{'] ['}', '}'] ['a', 'b', 'c', '1', '2', '3']).read_token).2).1,
      o.2.2.2.1, o.2.2.2.2, o.2.1, o.2.2.1]
    decide

/-- C8 amended: read inside a tag (the `InTag` state), the inputs "abc123",
"123abc" and "_x9" each produce a single `Id` token carrying the full
string, followed by the none-signal; identifier runs are maximal and end
only at a non-identifier character or the close delimiter. -/
theorem c8_id_in_tag :
    ((⟨['a', 'b', 'c', '1', '2', '3'], [], State.SyntaxToken, ['{', '{'], ['}', '}']⟩ :
        Tokenlizer).read_token).1 = some (Token.Id ['a', 'b', 'c', '1', '2', '3'])
    ∧ ((⟨['1', '2', '3', 'a', 'b', 'c'], [], State.SyntaxToken, ['{', '{'], ['}', '}']⟩ :
        Tokenlizer).read_token).1 = some (Token.Id ['1', '2', '3', 'a', 'b', 'c'])
    ∧ ((⟨['_', 'x', '9'], [], State.SyntaxToken, ['{', '{'], ['}', '}']⟩ :
        Tokenlizer).read_token).1 = some (Token.Id ['_', 'x', '9'])
    ∧ (((⟨['a', 'b', 'c', '1', '2', '3'], [], State.SyntaxToken, ['{', '{'], ['}', '}']⟩ :
        Tokenlizer).read_token).2.read_token).1 = none := by
  refine ⟨?_, ?_, ?_, ?_⟩
  · rw [(read_token_obs (⟨['a', 'b', 'c', '1', '2', '3'], [], State.SyntaxToken,
      ['{', '{'], ['}', '}']⟩ : Tokenlizer)).1]
    decide
  · rw [(read_token_obs (⟨['1', '2', '3', 'a', 'b', 'c'], [], State.SyntaxToken,
      ['{', '{'], ['}', '}']⟩ : Tokenlizer)).1]
    decide
  · rw [(read_token_obs (⟨['_', 'x', '9'], [], State.SyntaxToken,
      ['{', '{'], ['}', '}']⟩ : Tokenlizer)).1]
    decide
  · have o := read_token_obs (⟨['a', 'b', 'c', '1', '2', '3'], [], State.SyntaxToken,
      ['{', '{'], ['}', '}']⟩ : Tokenlizer)
    rw [(read_token_obs ((⟨['a', 'b', 'c', '1', '2', '3'], [], State.SyntaxToken,
        ['{', '{'], ['}', '}']⟩ : Tokenlizer).read_token).2).1,
      o.2.2.2.1, o.2.2.2.2, o.2.1, o.2.2.1]
    decide

/-- C9: the token sequence is fused: once a `nextToken` request gives the
none-signal, every later request on that tokenizer gives the none-signal as
well; a token is never produced again. -/
theorem c9_fused (σ : Tokenlizer) (h : (σ.read_token).1 = none) :
    ∀ k, (((σ.read_token).2.nextN k).read_token).1 = none := by
  intro k
  induction k with
  | zero => exact read_token_none_step h
  | succ k ih => exact read_token_none_step ih

/-- Witness for C9 at the empty input. -/
theorem c9_fused_witness :
    ((((Tokenlizer.new ['{', '{'] ['}', '}'] []).read_token).2.nextN 2).read_token).1
      = none := by
  have h : ((Tokenlizer.new ['{', '{'] ['}', '}'] []).read_token).1 = none := by
    rw [(read_token_obs (Tokenlizer.new ['{', '{'] ['}', '}'] [])).1]
    decide
  exact c9_fused (Tokenlizer.new ['{', '{'] ['}', '}'] []) h 2

/-- C10: every emitted token that carries a string carries a non-empty one;
an emitted `Text` contains no occurrence of the open delimiter (no index at
which the delimiter is a prefix of the rest), and an emitted `Id` consists
of identifier characters only. -/
theorem c10_emitted_tokens (σ : Tokenlizer) (tok : Token)
    (h : (σ.read_token).1 = some tok) : goodToken σ.lm tok := by
  obtain ⟨m1, m2, m3, m4, m5⟩ := read_token_obs σ
  rw [m1] at h
  exact stepP_good h

/-- Witness for C10 at a concrete emitted `Text` token. -/
theorem c10_emitted_tokens_witness :
    goodToken ['{', '{'] (Token.Text ['a', 'b']) := by
  have h : ((Tokenlizer.new ['{', '{'] ['}', '}'] ['a', 'b', '{', '{', 'c']).read_token).1
      = some (Token.Text ['a', 'b']) := by
    rw [(read_token_obs (Tokenlizer.new ['{', '{'] ['}', '}'] ['a', 'b', '{', '{', 'c'])).1]
    decide
  exact c10_emitted_tokens (Tokenlizer.new ['{', '{'] ['}', '}'] ['a', 'b', '{', '{', 'c'])
    (Token.Text ['a', 'b']) h

end Mrush
